import Mathlib

/-!
Shallow embedding of `src/transliterator.py` (class `Transliterate`), a
Cyrillic-to-Latin transliterator following the Estonian EKI ruleset.

Modelling conventions:
* a Python string is a `List Char`; a list of sentences is a `List (List Char)`;
* Python indexing `word[i]` (including negative indices) is `pyGet`, returning
  `none` where Python would raise `IndexError`;
* Python dict lookup on the two static tables is `List.lookup` on an
  association list, returning `none` where Python would raise `KeyError`;
* every function that can hit an `IndexError`/`KeyError`/`TypeError` in Python
  returns an `Option`, with `none` for the raised exception (and for the
  implicit `None` fallthrough of `_check_char_rules`);
* `str.isupper`/`str.lower` are modelled on the Latin and Cyrillic letters the
  program manipulates (`pyIsUpper`/`pyLower`); on every character that can
  reach them in this program this agrees with Python.
-/

namespace Translit

/-- Python `c.isupper()` for a single character, restricted to the basic Latin
and Russian Cyrillic alphabets (the letters this program manipulates). -/
def pyIsUpper (c : Char) : Bool :=
  ('A' ≤ c && c ≤ 'Z') || ('А' ≤ c && c ≤ 'Я') || c = 'Ё'

/-- Python `str.lower` on one character, restricted to basic Latin and Russian
Cyrillic (uppercase Cyrillic А..Я and Latin A..Z are 32 code points above
their lowercase forms; Ё is special-cased, everything else is unchanged). -/
def pyLower (c : Char) : Char :=
  if ('A' ≤ c && c ≤ 'Z') || ('А' ≤ c && c ≤ 'Я') then Char.ofNat (c.toNat + 32)
  else if c = 'Ё' then 'ё' else c

/-- `_check_if_upper_and_return` (src/transliterator.py:194-208): return the
candidate unchanged if the source character is uppercase, else fully
lowercased. -/
def check_if_upper_and_return (char_in_index : Char) (char : List Char) : List Char :=
  if pyIsUpper char_in_index then char else char.map pyLower

/-- `_vocals_rus` (src/transliterator.py:212): the fixed list of (lowercase)
Cyrillic vowels. -/
def vocals_rus : List Char := ['а', 'э', 'ы', 'у', 'о', 'я', 'е', 'ё', 'ю', 'и']

/-- `_vocals_est` (src/transliterator.py:211), unused by the engine. -/
def vocals_est : List Char := ['i', 'ü', 'u', 'e', 'ö', 'õ', 'o', 'ä', 'a']

/-- `_translit_table` (src/transliterator.py:213-239) as an association list. -/
def translit_table_list : List (Char × List Char) :=
  [('А', ['A']), ('а', ['a']),
   ('Б', ['B']), ('б', ['b']),
   ('В', ['V']), ('в', ['v']),
   ('Г', ['G']), ('г', ['g']),
   ('Д', ['D']), ('д', ['d']),
   ('Ж', ['Ž']), ('ж', ['ž']),
   ('З', ['Z']), ('з', ['z']),
   ('К', ['K']), ('к', ['k']),
   ('Л', ['L']), ('л', ['l']),
   ('М', ['M']), ('м', ['m']),
   ('Н', ['N']), ('н', ['n']),
   ('О', ['O']), ('о', ['o']),
   ('П', ['P']), ('п', ['p']),
   ('Р', ['R']), ('р', ['r']),
   ('Т', ['T']), ('т', ['t']),
   ('У', ['U']), ('у', ['u']),
   ('Ф', ['F']), ('ф', ['f']),
   ('Ц', ['T', 's']), ('ц', ['t', 's']),
   ('Ч', ['T', 'š']), ('ч', ['t', 'š']),
   ('Ш', ['Š']), ('ш', ['š']),
   ('Щ', ['Š', 't', 'š']), ('щ', ['š', 't', 'š']),
   ('Ы', ['õ']), ('ы', ['õ']),
   ('Ъ', []), ('ъ', []),
   ('Э', ['E']), ('э', ['e']),
   ('Ю', ['J', 'u']), ('ю', ['j', 'u']),
   ('Я', ['J', 'a']), ('я', ['j', 'a'])]

/-- Lookup in `_translit_table`; `none` models both a failed `in` membership
test and a `KeyError`. -/
def translit_table (c : Char) : Option (List Char) :=
  translit_table_list.lookup c

/-- `_chars_with_rules` (src/transliterator.py:240-248) as an association
list. -/
def chars_with_rules_list : List (Char × List Char) :=
  [('Е', ['E']), ('е', ['e']),
   ('Ё', ['J', 'o']), ('ё', ['j', 'o']),
   ('И', ['I']), ('и', ['i']),
   ('Й', ['I']), ('й', ['i']),
   ('Х', ['H']), ('х', ['h']),
   ('Ь', []), ('ь', []),
   ('С', ['S']), ('с', ['s'])]

/-- Lookup in `_chars_with_rules`. -/
def chars_with_rules (c : Char) : Option (List Char) :=
  chars_with_rules_list.lookup c

/-- Python sequence indexing `w[i]`, including negative indices; `none` is an
`IndexError`. -/
def pyGet (w : List Char) (i : Int) : Option Char :=
  if 0 ≤ i then
    if i < (w.length : Int) then some (w.getD i.toNat ' ') else none
  else
    if 0 ≤ i + (w.length : Int) then some (w.getD (i + (w.length : Int)).toNat ' ') else none

/-- Left-to-right scanner behind `findIj`: `skip` records that the head
character was consumed by the previous two-character match, `i` is the
absolute index of the head character. -/
def findIjGo : Bool → Nat → List Char → List Nat
  | _, _, [] => []
  | true, i, _ :: rest => findIjGo false (i + 1) rest
  | false, i, c :: rest =>
    if c = 'и' ∧ rest.headD ' ' = 'й' then i :: findIjGo true (i + 1) rest
    else findIjGo false (i + 1) rest

/-- Start indices of the non-overlapping left-to-right matches of the
two-character pattern `"ий"`, as produced by `re.finditer("ий", ·)`
(src/transliterator.py:65). -/
def findIj (l : List Char) : List Nat := findIjGo false 0 l

/-- `_check_doublechar_rules` (src/transliterator.py:54-73): for words longer
than 3 characters, for each match of `"ий"` in the lowered word whose end is
the word's last character, truncate to the match start plus one character and
replace that last kept character (Python `word_to_return[-1] = new_char`,
modelled as `dropLast ++ [·]`) with `'I'` cased after the original `и`. -/
def check_doublechar_rules (word : List Char) : List Char :=
  if word.length > 3 then
    (findIj (word.map pyLower)).foldl
      (fun acc s =>
        if s + 2 - 1 = word.length - 1 then
          (acc.take (s + 1)).dropLast ++ check_if_upper_and_return (word.getD s ' ') ['I']
        else acc)
      word
  else word

/-- The `char_to_return` computation of `_rules_for_s`
(src/transliterator.py:100-112); `some []` is the `''` sentinel left when no
branch fired. -/
def rules_for_s_try (word : List Char) (char : Char) (char_index : Nat) : Option (List Char) :=
  if char_index > 0 then
    match pyGet word ((char_index : Int) - 1) with
    | none => none
    | some prev =>
      if prev ∈ vocals_rus then
        if word.length = 2 then some (check_if_upper_and_return char ['S', 's'])
        else if (word.drop (char_index + 1)).length > 0 then
          match pyGet word ((char_index : Int) + 1) with
          | none => none
          | some nxt =>
            if nxt ∈ vocals_rus then some (check_if_upper_and_return char ['S', 's'])
            else
              match pyGet word (-1) with
              | none => none
              | some lastc =>
                if lastc = char then some (check_if_upper_and_return char ['S', 's'])
                else some []
        else
          match pyGet word (-1) with
          | none => none
          | some lastc =>
            if lastc = char then some (check_if_upper_and_return char ['S', 's'])
            else some []
      else some []
  else some []

/-- `_rules_for_s` (src/transliterator.py:96-117). -/
def rules_for_s (word : List Char) (char : Char) (char_index : Nat) : Option (List Char) :=
  match rules_for_s_try word char char_index with
  | none => none
  | some s => if s = [] then chars_with_rules char else some s

/-- `_rules_for_soft` (src/transliterator.py:119-128). -/
def rules_for_soft (word : List Char) (char : Char) (char_index : Nat) : Option (List Char) :=
  if (word.drop (char_index + 1)).length > 0 then
    match pyGet word ((char_index : Int) + 1) with
    | none => none
    | some nxt =>
      if nxt ∉ (['е', 'Е', 'ё', 'Ё', 'ю', 'Ю', 'я', 'Я'] : List Char) ∧ nxt ∈ vocals_rus then
        some (check_if_upper_and_return char ['J'])
      else chars_with_rules char
  else chars_with_rules char

/-- `_rules_for_e` (src/transliterator.py:130-141). -/
def rules_for_e (word : List Char) (char : Char) (char_index : Nat) : Option (List Char) :=
  if char_index = 0 then some (check_if_upper_and_return char ['J', 'e'])
  else
    match pyGet word ((char_index : Int) - 1) with
    | none => none
    | some prev =>
      if prev ∈ vocals_rus ∨ prev ∈ (['Ь', 'ь', 'Ъ', 'ъ'] : List Char) then
        some (check_if_upper_and_return char ['J', 'e'])
      else chars_with_rules char

/-- The `char_to_return` computation of `_rules_for_jo`
(src/transliterator.py:147-150). -/
def rules_for_jo_try (word : List Char) (char : Char) (char_index : Nat) : Option (List Char) :=
  if char_index ≠ 0 then
    match pyGet word ((char_index : Int) - 1) with
    | none => none
    | some prev =>
      if prev ∈ (['Ж', 'ж', 'Ч', 'ч', 'Ш', 'ш', 'Щ', 'щ'] : List Char) then
        some (check_if_upper_and_return char ['O'])
      else some []
  else some []

/-- `_rules_for_jo` (src/transliterator.py:143-155). -/
def rules_for_jo (word : List Char) (char : Char) (char_index : Nat) : Option (List Char) :=
  match rules_for_jo_try word char char_index with
  | none => none
  | some s => if s = [] then chars_with_rules char else some s

/-- The `char_to_return` computation of `_rules_for_i`
(src/transliterator.py:161-164); the access `word[i+1]` is reached only when
`char_index == 0` thanks to Python's short-circuit `and`. -/
def rules_for_i_try (word : List Char) (char : Char) (char_index : Nat) : Option (List Char) :=
  if word.length > 1 then
    if char_index = 0 then
      match pyGet word ((char_index : Int) + 1) with
      | none => none
      | some nxt =>
        if nxt ∈ vocals_rus then some (check_if_upper_and_return char ['J']) else some []
    else some []
  else some []

/-- `_rules_for_i` (src/transliterator.py:157-169). -/
def rules_for_i (word : List Char) (char : Char) (char_index : Nat) : Option (List Char) :=
  match rules_for_i_try word char char_index with
  | none => none
  | some s => if s = [] then chars_with_rules char else some s

/-- The `char_to_return` computation of `_rules_for_h`
(src/transliterator.py:175-187). -/
def rules_for_h_try (word : List Char) (char : Char) (char_index : Nat) : Option (List Char) :=
  if char_index > 0 then
    match pyGet word ((char_index : Int) - 1) with
    | none => none
    | some prev =>
      if prev ∈ vocals_rus then
        if word.length = 2 then some (check_if_upper_and_return char ['H', 'h'])
        else if (word.drop (char_index + 1)).length > 0 then
          match pyGet word ((char_index : Int) + 1) with
          | none => none
          | some nxt =>
            if nxt ∈ vocals_rus then some (check_if_upper_and_return char ['H', 'h'])
            else
              match pyGet word (-1) with
              | none => none
              | some lastc =>
                if lastc = char then some (check_if_upper_and_return char ['H', 'h'])
                else some []
        else
          match pyGet word (-1) with
          | none => none
          | some lastc =>
            if lastc = char then some (check_if_upper_and_return char ['H', 'h'])
            else some []
      else some []
  else some []

/-- `_rules_for_h` (src/transliterator.py:171-192). -/
def rules_for_h (word : List Char) (char : Char) (char_index : Nat) : Option (List Char) :=
  match rules_for_h_try word char char_index with
  | none => none
  | some s => if s = [] then chars_with_rules char else some s

/-- `_check_char_rules` (src/transliterator.py:75-94); `none` is the implicit
Python `None` when no branch matches. -/
def check_char_rules (word : List Char) (char : Char) (char_index : Nat) : Option (List Char) :=
  if char ∈ (['Е', 'е'] : List Char) then rules_for_e word char char_index
  else if char ∈ (['Ё', 'ё'] : List Char) then rules_for_jo word char char_index
  else if char ∈ (['И', 'и', 'Й', 'й'] : List Char) then rules_for_i word char char_index
  else if char ∈ (['Х', 'х'] : List Char) then rules_for_h word char char_index
  else if char ∈ (['Ь', 'ь'] : List Char) then rules_for_soft word char char_index
  else if char ∈ (['С', 'с'] : List Char) then rules_for_s word char char_index
  else none

/-- One iteration of the per-character loop body of `_transliterate`
(src/transliterator.py:38-46): table lookup, else dispatcher, else the
character verbatim. -/
def resolve_char (word : List Char) (char : Char) (char_index : Nat) : Option (List Char) :=
  match translit_table char with
  | some v => some v
  | none =>
    match chars_with_rules char with
    | some _ => check_char_rules word char char_index
    | none => some [char]

/-- The `enumerate(word)` loop of `_transliterate` (src/transliterator.py:38-48)
over the suffix of `word` starting at index `i`; `none` propagates a raised
exception (including Python's `TypeError` on `converted_word += None`). -/
def convert_chars (word : List Char) : Nat → List Char → Option (List Char)
  | _, [] => some []
  | i, c :: rest =>
    match resolve_char word c i with
    | none => none
    | some s =>
      match convert_chars word (i + 1) rest with
      | none => none
      | some t => some (s ++ t)

/-- Per-word processing of `_transliterate` (src/transliterator.py:36-48):
preprocess with `_check_doublechar_rules`, then resolve every character of the
preprocessed word. -/
def translit_word (w : List Char) : Option (List Char) :=
  convert_chars (check_doublechar_rules w) 0 (check_doublechar_rules w)

/-- Python `sentence.split(' ')` (src/transliterator.py:34): split on every
single space, keeping empty words. -/
def pySplit : List Char → List (List Char)
  | [] => [[]]
  | c :: rest =>
    match pySplit rest with
    | [] => [[]]
    | w :: ws => if c = ' ' then [] :: w :: ws else (c :: w) :: ws

/-- Python `' '.join(words)` (src/transliterator.py:50). -/
def pyJoin : List (List Char) → List Char
  | [] => []
  | [w] => w
  | w :: ws => w ++ ' ' :: pyJoin ws

/-- A Python loop that builds a list from `f` applied to each element,
propagating a raised exception as `none`. -/
def opt_map {α β : Type} (f : α → Option β) : List α → Option (List β)
  | [] => some []
  | x :: xs =>
    match f x with
    | none => none
    | some y =>
      match opt_map f xs with
      | none => none
      | some ys => some (y :: ys)

/-- Per-sentence processing of `_transliterate` (src/transliterator.py:33-50). -/
def translit_sentence (s : List Char) : Option (List Char) :=
  match opt_map translit_word (pySplit s) with
  | none => none
  | some ws => some (pyJoin ws)

/-- `_transliterate` (src/transliterator.py:22-52) on a list of sentences. -/
def transliterate (sentences : List (List Char)) : Option (List (List Char)) :=
  opt_map translit_sentence sentences

/-- A Python value passed as an element of the `sentences` argument: either a
string or a non-string object. -/
inductive PyVal : Type where
  | str : List Char → PyVal
  | nonstr : PyVal
deriving DecidableEq

/-- The Python exceptions `_transliterate` can raise on malformed input. -/
inductive PyExc : Type where
  | typeError : PyExc
  | attributeError : PyExc
deriving DecidableEq

/-- The sentence loop of `_transliterate` over dynamically typed entries:
`entry.split(' ')` on a non-string raises `AttributeError`. -/
def py_process : List PyVal → Except PyExc (List (List Char))
  | [] => .ok []
  | PyVal.str s :: rest =>
    match translit_sentence s with
    | none => .error PyExc.typeError
    | some o =>
      match py_process rest with
      | .error e => .error e
      | .ok os => .ok (o :: os)
  | PyVal.nonstr :: _ => .error PyExc.attributeError

/-- `_transliterate` on a dynamically typed argument: iterating `None` raises
`TypeError`. -/
def py_transliterate : Option (List PyVal) → Except PyExc (List (List Char))
  | none => .error PyExc.typeError
  | some entries => py_process entries

/-- `__call__` (src/transliterator.py:19-20): forwards to `_transliterate`
with no validation of its own. -/
def py_call (sentences : Option (List PyVal)) : Except PyExc (List (List Char)) :=
  py_transliterate sentences

/-- Modelled from the spec (claim C1's wording): index positive, preceding
character a vowel, and word length 2, or a following vowel, or this occurrence
being the word's last character. -/
def spec_double_cond (w : List Char) (i : Nat) : Bool :=
  decide (0 < i) && decide (w.getD (i - 1) ' ' ∈ vocals_rus) &&
    (decide (w.length = 2) ||
      (decide (i + 1 < w.length) && decide (w.getD (i + 1) ' ' ∈ vocals_rus)) ||
      decide (i = w.length - 1))

/-- The doubling condition the code actually implements for х and с: the last
alternative compares the word's final character with `char` by value. -/
def hs_double_cond (w : List Char) (c : Char) (i : Nat) : Bool :=
  decide (0 < i) && decide (w.getD (i - 1) ' ' ∈ vocals_rus) &&
    (decide (w.length = 2) ||
      (decide (i + 1 < w.length) && decide (w.getD (i + 1) ' ' ∈ vocals_rus)) ||
      decide (w.getD (w.length - 1) ' ' = c))

/-- Whether a resolved string's first character is uppercase (false for the
empty string). -/
def firstIsUpper : List Char → Bool
  | [] => false
  | c :: _ => pyIsUpper c

/-- Python `c.islower()` restricted to the letters this program emits. -/
def pyIsLower (c : Char) : Bool :=
  ('a' ≤ c && c ≤ 'z') || ('а' ≤ c && c ≤ 'я') || c = 'ё' ||
    c ∈ (['š', 'ž', 'õ', 'ü', 'ö', 'ä'] : List Char)

/-! ### Character-level helper lemmas -/

theorem toNat_ofNat_lt (n : Nat) (h : n < 0xd800) : (Char.ofNat n).toNat = n := by
  simp only [Char.ofNat, Nat.isValidChar]
  rw [dif_pos (Or.inl h)]
  simp [Char.ofNatAux, Char.toNat, UInt32.toNat, UInt32.ofNatCore]

theorem char_toNat_inj {c d : Char} (h : c.toNat = d.toNat) : c = d := by
  have h1 : Char.ofNat c.toNat = Char.ofNat d.toNat := by rw [h]
  rwa [Char.ofNat_toNat, Char.ofNat_toNat] at h1

theorem char_le_toNat {c d : Char} (h : c ≤ d) : c.toNat ≤ d.toNat := by
  rw [Char.le_def, UInt32.le_def] at h
  have h2 := BitVec.le_def.mp h
  simpa [Char.toNat, UInt32.toNat] using h2

theorem pyLower_in_range {c : Char}
    (h : (('A' ≤ c && c ≤ 'Z') || ('А' ≤ c && c ≤ 'Я')) = true) :
    (pyLower c).toNat = c.toNat + 32 ∧ c.toNat ≤ 0x42F := by
  have hbound : c.toNat ≤ 0x42F := by
    rcases Bool.or_eq_true_iff.mp h with h1 | h1
    · have h2 := char_le_toNat (of_decide_eq_true (Bool.and_eq_true_iff.mp h1).2)
      have h3 : ('Z' : Char).toNat = 90 := by decide
      omega
    · have h2 := char_le_toNat (of_decide_eq_true (Bool.and_eq_true_iff.mp h1).2)
      have h3 : ('Я' : Char).toNat = 1071 := by decide
      omega
  refine ⟨?_, hbound⟩
  simp only [pyLower, h, if_true]
  exact toNat_ofNat_lt _ (by omega)

theorem pyLower_eq_cyr {c d : Char} (hd : pyLower c = d)
    (hlow : ('а' ≤ d && d ≤ 'я') = true) : c = d ∨ c.toNat + 32 = d.toNat := by
  by_cases h : (('A' ≤ c && c ≤ 'Z') || ('А' ≤ c && c ≤ 'Я')) = true
  · right
    have h2 := (pyLower_in_range h).1
    rw [hd] at h2
    omega
  · left
    simp only [pyLower] at hd
    rw [if_neg (by simp [h])] at hd
    by_cases h2 : c = 'Ё'
    · rw [if_pos h2] at hd
      subst hd
      exact absurd hlow (by decide)
    · rwa [if_neg h2] at hd

theorem pyLower_eq_i {c : Char} (hd : pyLower c = 'и') : c = 'И' ∨ c = 'и' := by
  rcases pyLower_eq_cyr hd (by decide) with h | h
  · right; exact h
  · left
    refine char_toNat_inj (show c.toNat = ('И' : Char).toNat from ?_)
    have h1 : ('и' : Char).toNat = 1080 := by decide
    have h2 : ('И' : Char).toNat = 1048 := by decide
    omega

theorem pyLower_eq_j {c : Char} (hd : pyLower c = 'й') : c = 'Й' ∨ c = 'й' := by
  rcases pyLower_eq_cyr hd (by decide) with h | h
  · right; exact h
  · left
    refine char_toNat_inj (show c.toNat = ('Й' : Char).toNat from ?_)
    have h1 : ('й' : Char).toNat = 1081 := by decide
    have h2 : ('Й' : Char).toNat = 1049 := by decide
    omega

theorem pyGet_nat {w : List Char} {n : Nat} (h : n < w.length) :
    pyGet w (n : Int) = some (w.getD n ' ') := by
  simp [pyGet, h]

theorem pyGet_sub_one {w : List Char} {n : Nat} (h1 : 0 < n) (h2 : n < w.length) :
    pyGet w ((n : Int) - 1) = some (w.getD (n - 1) ' ') := by
  have he : ((n : Int) - 1) = ((n - 1 : Nat) : Int) := by omega
  rw [he]
  exact pyGet_nat (by omega)

theorem pyGet_add_one {w : List Char} {n : Nat} (h : n + 1 < w.length) :
    pyGet w ((n : Int) + 1) = some (w.getD (n + 1) ' ') := by
  have he : ((n : Int) + 1) = ((n + 1 : Nat) : Int) := by omega
  rw [he]
  exact pyGet_nat h

theorem pyGet_neg_one {w : List Char} (h : 0 < w.length) :
    pyGet w (-1) = some (w.getD (w.length - 1) ' ') := by
  have h0 : ¬ ((0 : Int) ≤ -1) := by omega
  have h1 : (0 : Int) ≤ -1 + (w.length : Int) := by omega
  have h2 : ((-1 : Int) + (w.length : Int)).toNat = w.length - 1 := by omega
  simp only [pyGet, h0, if_false, h1, if_true, h2]

theorem lookup_mem {α β : Type} [DecidableEq α] {a : α} {b : β} :
    ∀ {l : List (α × β)}, List.lookup a l = some b → (a, b) ∈ l := by
  intro l
  induction l with
  | nil => intro h; simp [List.lookup] at h
  | cons p rest ih =>
    intro h
    rw [List.lookup] at h
    by_cases he : a = p.1
    · simp only [he, beq_self_eq_true, if_true, Option.some.injEq] at h
      have : (a, b) = p := by
        cases p
        simp only [Prod.mk.injEq]
        exact ⟨he, h.symm⟩
      rw [this]
      exact List.mem_cons_self _ _
    · have hne : (a == p.1) = false := beq_eq_false_iff_ne.mpr he
      rw [hne] at h
      exact List.mem_cons_of_mem _ (ih h)

theorem translit_table_vals {c : Char} {v : List Char} (h : translit_table c = some v) :
    (c, v) ∈ translit_table_list :=
  lookup_mem h

theorem chars_with_rules_vals {c : Char} {v : List Char} (h : chars_with_rules c = some v) :
    (c, v) ∈ chars_with_rules_list :=
  lookup_mem h

theorem translit_table_no_space {c : Char} {v : List Char} (h : translit_table c = some v) :
    ' ' ∉ v := by
  have hm := translit_table_vals h
  have hall : ∀ p ∈ translit_table_list, ' ' ∉ p.2 := by decide
  exact hall _ hm

theorem chars_with_rules_no_space {c : Char} {v : List Char} (h : chars_with_rules c = some v) :
    ' ' ∉ v := by
  have hm := chars_with_rules_vals h
  have hall : ∀ p ∈ chars_with_rules_list, ' ' ∉ p.2 := by decide
  exact hall _ hm

/-! ### Preprocessor characterization -/

theorem headD_ne_nil {l : List Char} (h : l.headD ' ' = 'й') : l ≠ [] := by
  cases l with
  | nil => simp at h
  | cons a rest => simp

theorem findIjGo_mem :
    ∀ (l : List Char) (skip : Bool) (i s : Nat), s ∈ findIjGo skip i l →
      ∃ k, s = i + k ∧ k + 2 ≤ l.length ∧ l.getD k ' ' = 'и' ∧ l.getD (k + 1) ' ' = 'й' := by
  intro l
  induction l with
  | nil => intro skip i s h; cases skip <;> simp [findIjGo] at h
  | cons c rest ih =>
    intro skip i s h
    cases skip with
    | true =>
      rw [show findIjGo true i (c :: rest) = findIjGo false (i + 1) rest from rfl] at h
      obtain ⟨k, hk1, hk2, hk3, hk4⟩ := ih false (i + 1) s h
      exact ⟨k + 1, by omega, by simp only [List.length_cons]; omega, by simpa using hk3, by simpa using hk4⟩
    | false =>
      rw [show findIjGo false i (c :: rest) =
          if c = 'и' ∧ rest.headD ' ' = 'й' then i :: findIjGo true (i + 1) rest
          else findIjGo false (i + 1) rest from rfl] at h
      by_cases hc : c = 'и' ∧ rest.headD ' ' = 'й'
      · rw [if_pos hc] at h
        rcases List.mem_cons.mp h with h1 | h1
        · subst h1
          have hne := headD_ne_nil hc.2
          cases rest with
          | nil => exact absurd rfl hne
          | cons c2 rest2 =>
            refine ⟨0, by omega, by simp only [List.length_cons]; omega, by simpa using hc.1, ?_⟩
            simpa using hc.2
        · obtain ⟨k, hk1, hk2, hk3, hk4⟩ := ih true (i + 1) s h1
          exact ⟨k + 1, by omega, by simp only [List.length_cons]; omega, by simpa using hk3, by simpa using hk4⟩
      · rw [if_neg hc] at h
        obtain ⟨k, hk1, hk2, hk3, hk4⟩ := ih false (i + 1) s h
        exact ⟨k + 1, by omega, by simp only [List.length_cons]; omega, by simpa using hk3, by simpa using hk4⟩

theorem findIjGo_end :
    ∀ (l : List Char) (i : Nat), 2 ≤ l.length → l.getD (l.length - 2) ' ' = 'и' →
      l.getD (l.length - 1) ' ' = 'й' → (i + (l.length - 2)) ∈ findIjGo false i l
  | [], _, h2, _, _ => by simp at h2
  | [_], _, h2, _, _ => by simp at h2
  | c1 :: c2 :: rest2, i, h2, hi, hj => by
    rw [show findIjGo false i (c1 :: c2 :: rest2) =
        if c1 = 'и' ∧ (c2 :: rest2).headD ' ' = 'й' then i :: findIjGo true (i + 1) (c2 :: rest2)
        else findIjGo false (i + 1) (c2 :: rest2) from rfl]
    by_cases hc : c1 = 'и' ∧ (c2 :: rest2).headD ' ' = 'й'
    · rw [if_pos hc]
      cases rest2 with
      | nil =>
        simp only [List.length_cons, List.length_nil] at h2 ⊢
        exact List.mem_cons_self _ _
      | cons c3 rest3 =>
        cases rest3 with
        | nil =>
          -- length 3: the end match starts at the second character, which the
          -- head match claims is 'й'; but the end match needs it to be 'и'.
          simp only [List.length_cons, List.length_nil] at hi
          simp only [List.headD_cons] at hc
          rw [show (3 : Nat) - 2 = 1 from rfl] at hi
          simp only [List.getD_cons_succ, List.getD_cons_zero] at hi
          exact absurd (hc.2.symm.trans hi) (by decide)
        | cons c4 rest4 =>
          refine List.mem_cons_of_mem _ ?_
          rw [show findIjGo true (i + 1) (c3 :: c4 :: rest4 |> List.cons c2) =
              findIjGo false (i + 2) (c3 :: c4 :: rest4) from rfl]
          have hlen : 2 ≤ (c3 :: c4 :: rest4).length := by
            simp only [List.length_cons]; omega
          have hi2 : (c3 :: c4 :: rest4).getD ((c3 :: c4 :: rest4).length - 2) ' ' = 'и' := by
            have hs : (c1 :: c2 :: c3 :: c4 :: rest4).length - 2 =
                ((c3 :: c4 :: rest4).length - 2) + 2 := by
              simp only [List.length_cons]; omega
            rw [hs] at hi
            simp only [List.getD_cons_succ] at hi
            exact hi
          have hj2 : (c3 :: c4 :: rest4).getD ((c3 :: c4 :: rest4).length - 1) ' ' = 'й' := by
            have hs : (c1 :: c2 :: c3 :: c4 :: rest4).length - 1 =
                ((c3 :: c4 :: rest4).length - 1) + 2 := by
              simp only [List.length_cons]; omega
            rw [hs] at hj
            simp only [List.getD_cons_succ] at hj
            exact hj
          have hm := findIjGo_end (c3 :: c4 :: rest4) (i + 2) hlen hi2 hj2
          have hs : i + 2 + ((c3 :: c4 :: rest4).length - 2) =
              i + ((c1 :: c2 :: c3 :: c4 :: rest4).length - 2) := by
            simp only [List.length_cons]; omega
          rwa [hs] at hm
    · rw [if_neg hc]
      have hlen : 2 ≤ (c2 :: rest2).length := by
        cases rest2 with
        | nil =>
          -- length 2: the hypotheses say the word is exactly "ий", so the
          -- head match fires, contradicting hc.
          exfalso
          apply hc
          simp only [List.length_cons, List.length_nil] at hi hj
          rw [show (2 : Nat) - 2 = 0 from rfl] at hi
          rw [show (2 : Nat) - 1 = 1 from rfl] at hj
          simp only [List.getD_cons_zero, List.getD_cons_succ] at hi hj
          exact ⟨hi, by simpa using hj⟩
        | cons c3 rest3 => simp only [List.length_cons]; omega
      have hi2 : (c2 :: rest2).getD ((c2 :: rest2).length - 2) ' ' = 'и' := by
        have hs : (c1 :: c2 :: rest2).length - 2 = ((c2 :: rest2).length - 2) + 1 := by
          simp only [List.length_cons] at hlen ⊢; omega
        rw [hs] at hi
        simp only [List.getD_cons_succ] at hi
        exact hi
      have hj2 : (c2 :: rest2).getD ((c2 :: rest2).length - 1) ' ' = 'й' := by
        have hs : (c1 :: c2 :: rest2).length - 1 = ((c2 :: rest2).length - 1) + 1 := by
          simp only [List.length_cons] at hlen ⊢; omega
        rw [hs] at hj
        simp only [List.getD_cons_succ] at hj
        exact hj
      have hm := findIjGo_end (c2 :: rest2) (i + 1) hlen hi2 hj2
      have hs : i + 1 + ((c2 :: rest2).length - 2) = i + ((c1 :: c2 :: rest2).length - 2) := by
        simp only [List.length_cons] at hlen ⊢; omega
      rwa [hs] at hm

theorem ciur_singleton (c : Char) :
    check_if_upper_and_return c ['I'] = ['I'] ∨ check_if_upper_and_return c ['I'] = ['i'] := by
  unfold check_if_upper_and_return
  by_cases h : pyIsUpper c = true
  · rw [if_pos h]; left; rfl
  · rw [if_neg h]; right; decide

theorem doublechar_foldl (word : List Char) (hn : 3 < word.length) :
    ∀ (ms : List Nat) (acc : List Char), (∀ s ∈ ms, s + 2 ≤ word.length) →
      (acc = word ∨
        acc = word.take (word.length - 2) ++
          check_if_upper_and_return (word.getD (word.length - 2) ' ') ['I']) →
      ms.foldl
        (fun acc s =>
          if s + 2 - 1 = word.length - 1 then
            (acc.take (s + 1)).dropLast ++ check_if_upper_and_return (word.getD s ' ') ['I']
          else acc)
        acc =
      (if (word.length - 2) ∈ ms then
        word.take (word.length - 2) ++
          check_if_upper_and_return (word.getD (word.length - 2) ' ') ['I']
      else acc) := by
  intro ms
  induction ms with
  | nil => intro acc _ _; simp
  | cons s ms' ih =>
    intro acc hbound hacc
    set R := word.take (word.length - 2) ++
      check_if_upper_and_return (word.getD (word.length - 2) ' ') ['I'] with hR
    have hRlen : R.length = word.length - 1 := by
      rw [hR]
      rcases ciur_singleton (word.getD (word.length - 2) ' ') with h1 | h1 <;>
        rw [h1] <;> simp [List.length_take] <;> omega
    have hstep_ne : ∀ (a : List Char) (t : Nat), t + 2 ≤ word.length → t ≠ word.length - 2 →
        (if t + 2 - 1 = word.length - 1 then
          (a.take (t + 1)).dropLast ++ check_if_upper_and_return (word.getD t ' ') ['I']
        else a) = a := by
      intro a t ht hne
      rw [if_neg (by omega)]
    have hstep_tgt : ∀ (a : List Char), (a = word ∨ a = R) →
        (if (word.length - 2) + 2 - 1 = word.length - 1 then
          (a.take ((word.length - 2) + 1)).dropLast ++
            check_if_upper_and_return (word.getD (word.length - 2) ' ') ['I']
        else a) = R := by
      intro a ha
      rw [if_pos (by omega)]
      rcases ha with h | h
      · subst h
        rw [hR]
        congr 1
        rw [List.dropLast_eq_take, List.length_take, List.take_take]
        congr 1
        omega
      · subst h
        congr 1
        rw [List.take_of_length_le (by omega)]
        rcases ciur_singleton (word.getD (word.length - 2) ' ') with h1 | h1 <;>
          rw [hR, h1, List.dropLast_concat]
    simp only [List.foldl_cons]
    by_cases hs : s = word.length - 2
    · subst hs
      rw [hstep_tgt acc hacc]
      rw [ih R (fun t ht => hbound t (List.mem_cons_of_mem _ ht)) (Or.inr rfl)]
      by_cases hmem : (word.length - 2) ∈ ms'
      · rw [if_pos hmem, if_pos (List.mem_cons_self _ _)]
      · rw [if_neg hmem, if_pos (List.mem_cons_self _ _)]
    · rw [hstep_ne acc s (hbound s (List.mem_cons_self _ _)) hs]
      rw [ih acc (fun t ht => hbound t (List.mem_cons_of_mem _ ht)) hacc]
      by_cases hmem : (word.length - 2) ∈ ms'
      · rw [if_pos hmem, if_pos (List.mem_cons_of_mem _ hmem)]
      · rw [if_neg hmem, if_neg (by simp only [List.mem_cons]; tauto)]

theorem getD_map_pyLower (word : List Char) (k : Nat) (hk : k < word.length) :
    (word.map pyLower).getD k ' ' = pyLower (word.getD k ' ') := by
  rw [List.getD_eq_getElem _ _ (by simpa using hk), List.getD_eq_getElem _ _ hk]
  simp

theorem check_doublechar_eq (word : List Char) :
    check_doublechar_rules word =
      if 3 < word.length ∧ pyLower (word.getD (word.length - 2) ' ') = 'и' ∧
          pyLower (word.getD (word.length - 1) ' ') = 'й' then
        word.take (word.length - 2) ++
          check_if_upper_and_return (word.getD (word.length - 2) ' ') ['I']
      else word := by
  unfold check_doublechar_rules
  by_cases hn : word.length > 3
  · rw [if_pos hn]
    have hlow_len : (word.map pyLower).length = word.length := by simp
    have hbound : ∀ s ∈ findIj (word.map pyLower), s + 2 ≤ word.length := by
      intro s hs
      obtain ⟨k, hk1, hk2, _, _⟩ := findIjGo_mem _ false 0 s hs
      omega
    rw [doublechar_foldl word hn _ word hbound (Or.inl rfl)]
    have hmem_iff : ((word.length - 2) ∈ findIj (word.map pyLower)) ↔
        (pyLower (word.getD (word.length - 2) ' ') = 'и' ∧
          pyLower (word.getD (word.length - 1) ' ') = 'й') := by
      constructor
      · intro hmem
        obtain ⟨k, hk1, hk2, hk3, hk4⟩ := findIjGo_mem _ false 0 _ hmem
        have hk : k = word.length - 2 := by omega
        subst hk
        rw [getD_map_pyLower _ _ (by omega)] at hk3
        rw [show word.length - 2 + 1 = word.length - 1 by omega] at hk4
        rw [getD_map_pyLower _ _ (by omega)] at hk4
        exact ⟨hk3, hk4⟩
      · intro ⟨hi, hj⟩
        have h2 : 2 ≤ (word.map pyLower).length := by simpa using (by omega : 2 ≤ word.length)
        have hi2 : (word.map pyLower).getD ((word.map pyLower).length - 2) ' ' = 'и' := by
          rw [hlow_len, getD_map_pyLower _ _ (by omega)]
          exact hi
        have hj2 : (word.map pyLower).getD ((word.map pyLower).length - 1) ' ' = 'й' := by
          rw [hlow_len, getD_map_pyLower _ _ (by omega)]
          exact hj
        have := findIjGo_end (word.map pyLower) 0 h2 hi2 hj2
        simpa [findIj, hlow_len] using this
      
    by_cases hcond : pyLower (word.getD (word.length - 2) ' ') = 'и' ∧
        pyLower (word.getD (word.length - 1) ' ') = 'й'
    · rw [if_pos (hmem_iff.mpr hcond), if_pos ⟨hn, hcond⟩]
    · rw [if_neg (fun hmem => hcond (hmem_iff.mp hmem)),
        if_neg (fun hc => hcond ⟨hc.2.1, hc.2.2⟩)]
  · rw [if_neg hn, if_neg (fun hc => hn hc.1)]

/-! ### Rule-level equations for the doubling rules -/

theorem hs_double_cond_true_iff {w : List Char} {c : Char} {i : Nat} :
    hs_double_cond w c i = true ↔
      (0 < i ∧ w.getD (i - 1) ' ' ∈ vocals_rus ∧
        (w.length = 2 ∨ (i + 1 < w.length ∧ w.getD (i + 1) ' ' ∈ vocals_rus) ∨
          w.getD (w.length - 1) ' ' = c)) := by
  simp only [hs_double_cond, Bool.and_eq_true, Bool.or_eq_true, decide_eq_true_eq]
  tauto

theorem drop_length_pos_iff {w : List Char} {i : Nat} :
    ((w.drop (i + 1)).length > 0) ↔ i + 1 < w.length := by
  rw [List.length_drop]
  omega

theorem rules_for_h_try_eq {w : List Char} {c : Char} {i : Nat} (hi : i < w.length) :
    rules_for_h_try w c i =
      if hs_double_cond w c i then some (check_if_upper_and_return c ['H', 'h'])
      else some [] := by
  unfold rules_for_h_try
  by_cases h0 : i > 0
  · rw [if_pos h0, pyGet_sub_one h0 hi]
    dsimp only
    by_cases hprev : w.getD (i - 1) ' ' ∈ vocals_rus
    · rw [if_pos hprev]
      by_cases h2 : w.length = 2
      · rw [if_pos h2, if_pos (hs_double_cond_true_iff.mpr ⟨h0, hprev, Or.inl h2⟩)]
      · rw [if_neg h2]
        by_cases hnx : i + 1 < w.length
        · rw [if_pos (drop_length_pos_iff.mpr hnx), pyGet_add_one hnx]
          dsimp only
          by_cases hnv : w.getD (i + 1) ' ' ∈ vocals_rus
          · rw [if_pos hnv,
              if_pos (hs_double_cond_true_iff.mpr ⟨h0, hprev, Or.inr (Or.inl ⟨hnx, hnv⟩)⟩)]
          · rw [if_neg hnv, pyGet_neg_one (by omega)]
            dsimp only
            by_cases hlast : w.getD (w.length - 1) ' ' = c
            · rw [if_pos hlast,
                if_pos (hs_double_cond_true_iff.mpr ⟨h0, hprev, Or.inr (Or.inr hlast)⟩)]
            · rw [if_neg hlast, if_neg ?hc]
              case hc =>
                intro hcond
                rcases (hs_double_cond_true_iff.mp hcond).2.2 with h | h | h
                · exact h2 h
                · exact hnv h.2
                · exact hlast h
        · rw [if_neg (fun hp => hnx (drop_length_pos_iff.mp hp)), pyGet_neg_one (by omega)]
          dsimp only
          by_cases hlast : w.getD (w.length - 1) ' ' = c
          · rw [if_pos hlast,
              if_pos (hs_double_cond_true_iff.mpr ⟨h0, hprev, Or.inr (Or.inr hlast)⟩)]
          · rw [if_neg hlast, if_neg ?hc2]
            case hc2 =>
              intro hcond
              rcases (hs_double_cond_true_iff.mp hcond).2.2 with h | h | h
              · exact h2 h
              · exact hnx h.1
              · exact hlast h
    · rw [if_neg hprev, if_neg (fun hcond => hprev (hs_double_cond_true_iff.mp hcond).2.1)]
  · rw [if_neg h0, if_neg (fun hcond => h0 (hs_double_cond_true_iff.mp hcond).1)]

theorem rules_for_s_try_eq {w : List Char} {c : Char} {i : Nat} (hi : i < w.length) :
    rules_for_s_try w c i =
      if hs_double_cond w c i then some (check_if_upper_and_return c ['S', 's'])
      else some [] := by
  unfold rules_for_s_try
  by_cases h0 : i > 0
  · rw [if_pos h0, pyGet_sub_one h0 hi]
    dsimp only
    by_cases hprev : w.getD (i - 1) ' ' ∈ vocals_rus
    · rw [if_pos hprev]
      by_cases h2 : w.length = 2
      · rw [if_pos h2, if_pos (hs_double_cond_true_iff.mpr ⟨h0, hprev, Or.inl h2⟩)]
      · rw [if_neg h2]
        by_cases hnx : i + 1 < w.length
        · rw [if_pos (drop_length_pos_iff.mpr hnx), pyGet_add_one hnx]
          dsimp only
          by_cases hnv : w.getD (i + 1) ' ' ∈ vocals_rus
          · rw [if_pos hnv,
              if_pos (hs_double_cond_true_iff.mpr ⟨h0, hprev, Or.inr (Or.inl ⟨hnx, hnv⟩)⟩)]
          · rw [if_neg hnv, pyGet_neg_one (by omega)]
            dsimp only
            by_cases hlast : w.getD (w.length - 1) ' ' = c
            · rw [if_pos hlast,
                if_pos (hs_double_cond_true_iff.mpr ⟨h0, hprev, Or.inr (Or.inr hlast)⟩)]
            · rw [if_neg hlast, if_neg ?hc]
              case hc =>
                intro hcond
                rcases (hs_double_cond_true_iff.mp hcond).2.2 with h | h | h
                · exact h2 h
                · exact hnv h.2
                · exact hlast h
        · rw [if_neg (fun hp => hnx (drop_length_pos_iff.mp hp)), pyGet_neg_one (by omega)]
          dsimp only
          by_cases hlast : w.getD (w.length - 1) ' ' = c
          · rw [if_pos hlast,
              if_pos (hs_double_cond_true_iff.mpr ⟨h0, hprev, Or.inr (Or.inr hlast)⟩)]
          · rw [if_neg hlast, if_neg ?hc2]
            case hc2 =>
              intro hcond
              rcases (hs_double_cond_true_iff.mp hcond).2.2 with h | h | h
              · exact h2 h
              · exact hnx h.1
              · exact hlast h
    · rw [if_neg hprev, if_neg (fun hcond => hprev (hs_double_cond_true_iff.mp hcond).2.1)]
  · rw [if_neg h0, if_neg (fun hcond => h0 (hs_double_cond_true_iff.mp hcond).1)]

theorem ciur_ne_nil {c : Char} {l : List Char} (h : l ≠ []) :
    check_if_upper_and_return c l ≠ [] := by
  unfold check_if_upper_and_return
  intro hcontra
  by_cases hu : pyIsUpper c = true
  · rw [if_pos hu] at hcontra; exact h hcontra
  · rw [if_neg hu] at hcontra
    exact h (List.map_eq_nil_iff.mp hcontra)

theorem rules_for_h_eq {w : List Char} {c : Char} {i : Nat} (hi : i < w.length) :
    rules_for_h w c i =
      if hs_double_cond w c i then some (check_if_upper_and_return c ['H', 'h'])
      else chars_with_rules c := by
  unfold rules_for_h
  rw [rules_for_h_try_eq hi]
  by_cases hcond : hs_double_cond w c i = true
  · rw [if_pos hcond, if_pos hcond]
    dsimp only
    rw [if_neg (ciur_ne_nil (by decide))]
  · rw [if_neg hcond, if_neg hcond]
    dsimp only
    rw [if_pos rfl]

theorem rules_for_s_eq {w : List Char} {c : Char} {i : Nat} (hi : i < w.length) :
    rules_for_s w c i =
      if hs_double_cond w c i then some (check_if_upper_and_return c ['S', 's'])
      else chars_with_rules c := by
  unfold rules_for_s
  rw [rules_for_s_try_eq hi]
  by_cases hcond : hs_double_cond w c i = true
  · rw [if_pos hcond, if_pos hcond]
    dsimp only
    rw [if_neg (ciur_ne_nil (by decide))]
  · rw [if_neg hcond, if_neg hcond]
    dsimp only
    rw [if_pos rfl]

/-! ### Dispatcher output characterization -/

theorem rules_for_e_cases {w : List Char} {c : Char} {i : Nat} {s : List Char}
    (h : rules_for_e w c i = some s) :
    s = check_if_upper_and_return c ['J', 'e'] ∨ chars_with_rules c = some s := by
  unfold rules_for_e at h
  split at h
  · left; exact (Option.some.inj h).symm
  · split at h
    · exact absurd h (by simp)
    · split at h
      · left; exact (Option.some.inj h).symm
      · right; exact h

theorem rules_for_soft_cases {w : List Char} {c : Char} {i : Nat} {s : List Char}
    (h : rules_for_soft w c i = some s) :
    s = check_if_upper_and_return c ['J'] ∨ chars_with_rules c = some s := by
  unfold rules_for_soft at h
  split at h
  · split at h
    · exact absurd h (by simp)
    · split at h
      · left; exact (Option.some.inj h).symm
      · right; exact h
  · right; exact h

theorem rules_for_h_try_cases {w : List Char} {c : Char} {i : Nat} {t : List Char}
    (h : rules_for_h_try w c i = some t) :
    t = check_if_upper_and_return c ['H', 'h'] ∨ t = [] := by
  unfold rules_for_h_try at h
  repeat' split at h
  all_goals first
    | (left; exact (Option.some.inj h).symm)
    | (right; exact (Option.some.inj h).symm)
    | exact Option.noConfusion h

theorem rules_for_s_try_cases {w : List Char} {c : Char} {i : Nat} {t : List Char}
    (h : rules_for_s_try w c i = some t) :
    t = check_if_upper_and_return c ['S', 's'] ∨ t = [] := by
  unfold rules_for_s_try at h
  repeat' split at h
  all_goals first
    | (left; exact (Option.some.inj h).symm)
    | (right; exact (Option.some.inj h).symm)
    | exact Option.noConfusion h

theorem rules_for_jo_try_cases {w : List Char} {c : Char} {i : Nat} {t : List Char}
    (h : rules_for_jo_try w c i = some t) :
    t = check_if_upper_and_return c ['O'] ∨ t = [] := by
  unfold rules_for_jo_try at h
  repeat' split at h
  all_goals first
    | (left; exact (Option.some.inj h).symm)
    | (right; exact (Option.some.inj h).symm)
    | exact Option.noConfusion h

theorem rules_for_i_try_cases {w : List Char} {c : Char} {i : Nat} {t : List Char}
    (h : rules_for_i_try w c i = some t) :
    t = check_if_upper_and_return c ['J'] ∨ t = [] := by
  unfold rules_for_i_try at h
  repeat' split at h
  all_goals first
    | (left; exact (Option.some.inj h).symm)
    | (right; exact (Option.some.inj h).symm)
    | exact Option.noConfusion h

theorem rules_for_h_cases {w : List Char} {c : Char} {i : Nat} {s : List Char}
    (h : rules_for_h w c i = some s) :
    s = check_if_upper_and_return c ['H', 'h'] ∨ chars_with_rules c = some s := by
  unfold rules_for_h at h
  split at h
  · exact absurd h (by simp)
  · rename_i t ht
    split at h
    · right; exact h
    · rcases rules_for_h_try_cases ht with h1 | h1
      · left; rw [← Option.some.inj h, h1]
      · exact absurd h1 (by assumption)

theorem rules_for_s_cases {w : List Char} {c : Char} {i : Nat} {s : List Char}
    (h : rules_for_s w c i = some s) :
    s = check_if_upper_and_return c ['S', 's'] ∨ chars_with_rules c = some s := by
  unfold rules_for_s at h
  split at h
  · exact absurd h (by simp)
  · rename_i t ht
    split at h
    · right; exact h
    · rcases rules_for_s_try_cases ht with h1 | h1
      · left; rw [← Option.some.inj h, h1]
      · exact absurd h1 (by assumption)

theorem rules_for_jo_cases {w : List Char} {c : Char} {i : Nat} {s : List Char}
    (h : rules_for_jo w c i = some s) :
    s = check_if_upper_and_return c ['O'] ∨ chars_with_rules c = some s := by
  unfold rules_for_jo at h
  split at h
  · exact absurd h (by simp)
  · rename_i t ht
    split at h
    · right; exact h
    · rcases rules_for_jo_try_cases ht with h1 | h1
      · left; rw [← Option.some.inj h, h1]
      · exact absurd h1 (by assumption)

theorem rules_for_i_cases {w : List Char} {c : Char} {i : Nat} {s : List Char}
    (h : rules_for_i w c i = some s) :
    s = check_if_upper_and_return c ['J'] ∨ chars_with_rules c = some s := by
  unfold rules_for_i at h
  split at h
  · exact absurd h (by simp)
  · rename_i t ht
    split at h
    · right; exact h
    · rcases rules_for_i_try_cases ht with h1 | h1
      · left; rw [← Option.some.inj h, h1]
      · exact absurd h1 (by assumption)

theorem check_char_rules_cases {w : List Char} {c : Char} {i : Nat} {s : List Char}
    (h : check_char_rules w c i = some s) :
    s = check_if_upper_and_return c ['J', 'e'] ∨ s = check_if_upper_and_return c ['O'] ∨
      s = check_if_upper_and_return c ['J'] ∨ s = check_if_upper_and_return c ['H', 'h'] ∨
      s = check_if_upper_and_return c ['S', 's'] ∨ chars_with_rules c = some s := by
  unfold check_char_rules at h
  split at h
  · rcases rules_for_e_cases h with h1 | h1
    · exact Or.inl h1
    · exact Or.inr (Or.inr (Or.inr (Or.inr (Or.inr h1))))
  · split at h
    · rcases rules_for_jo_cases h with h1 | h1
      · exact Or.inr (Or.inl h1)
      · exact Or.inr (Or.inr (Or.inr (Or.inr (Or.inr h1))))
    · split at h
      · rcases rules_for_i_cases h with h1 | h1
        · exact Or.inr (Or.inr (Or.inl h1))
        · exact Or.inr (Or.inr (Or.inr (Or.inr (Or.inr h1))))
      · split at h
        · rcases rules_for_h_cases h with h1 | h1
          · exact Or.inr (Or.inr (Or.inr (Or.inl h1)))
          · exact Or.inr (Or.inr (Or.inr (Or.inr (Or.inr h1))))
        · split at h
          · rcases rules_for_soft_cases h with h1 | h1
            · exact Or.inr (Or.inr (Or.inl h1))
            · exact Or.inr (Or.inr (Or.inr (Or.inr (Or.inr h1))))
          · split at h
            · rcases rules_for_s_cases h with h1 | h1
              · exact Or.inr (Or.inr (Or.inr (Or.inr (Or.inl h1))))
              · exact Or.inr (Or.inr (Or.inr (Or.inr (Or.inr h1))))
            · exact absurd h (by simp)

/-! ### Totality of the rules -/

theorem rules_for_e_isSome {w : List Char} {c : Char} {i : Nat} (hi : i < w.length)
    (hc : (chars_with_rules c).isSome = true) : (rules_for_e w c i).isSome = true := by
  unfold rules_for_e
  by_cases h0 : i = 0
  · rw [if_pos h0]; rfl
  · rw [if_neg h0, pyGet_sub_one (by omega) hi]
    dsimp only
    split
    · rfl
    · exact hc

theorem rules_for_soft_isSome {w : List Char} {c : Char} {i : Nat}
    (hc : (chars_with_rules c).isSome = true) : (rules_for_soft w c i).isSome = true := by
  unfold rules_for_soft
  by_cases hnx : i + 1 < w.length
  · rw [if_pos (drop_length_pos_iff.mpr hnx), pyGet_add_one hnx]
    dsimp only
    split
    · rfl
    · exact hc
  · rw [if_neg (fun hp => hnx (drop_length_pos_iff.mp hp))]
    exact hc

theorem rules_for_h_isSome {w : List Char} {c : Char} {i : Nat} (hi : i < w.length)
    (hc : (chars_with_rules c).isSome = true) : (rules_for_h w c i).isSome = true := by
  rw [rules_for_h_eq hi]
  split
  · rfl
  · exact hc

theorem rules_for_s_isSome {w : List Char} {c : Char} {i : Nat} (hi : i < w.length)
    (hc : (chars_with_rules c).isSome = true) : (rules_for_s w c i).isSome = true := by
  rw [rules_for_s_eq hi]
  split
  · rfl
  · exact hc

theorem rules_for_jo_isSome {w : List Char} {c : Char} {i : Nat} (hi : i < w.length)
    (hc : (chars_with_rules c).isSome = true) : (rules_for_jo w c i).isSome = true := by
  have htry : (rules_for_jo_try w c i).isSome = true := by
    unfold rules_for_jo_try
    by_cases h0 : i ≠ 0
    · rw [if_pos h0, pyGet_sub_one (by omega) hi]
      dsimp only
      split <;> rfl
    · rw [if_neg h0]; rfl
  obtain ⟨t, ht⟩ := Option.isSome_iff_exists.mp htry
  unfold rules_for_jo
  rw [ht]
  dsimp only
  split
  · exact hc
  · rfl

theorem rules_for_i_isSome {w : List Char} {c : Char} {i : Nat} (hi : i < w.length)
    (hc : (chars_with_rules c).isSome = true) : (rules_for_i w c i).isSome = true := by
  have htry : (rules_for_i_try w c i).isSome = true := by
    unfold rules_for_i_try
    by_cases h1 : w.length > 1
    · rw [if_pos h1]
      by_cases h0 : i = 0
      · subst h0
        rw [if_pos rfl, pyGet_add_one (by omega)]
        dsimp only
        split <;> rfl
      · rw [if_neg h0]; rfl
    · rw [if_neg h1]; rfl
  obtain ⟨t, ht⟩ := Option.isSome_iff_exists.mp htry
  unfold rules_for_i
  rw [ht]
  dsimp only
  split
  · exact hc
  · rfl

theorem check_char_rules_isSome {w : List Char} {c : Char} {i : Nat} (hi : i < w.length)
    (hc : (chars_with_rules c).isSome = true) : (check_char_rules w c i).isSome = true := by
  unfold check_char_rules
  split
  · exact rules_for_e_isSome hi hc
  · split
    · exact rules_for_jo_isSome hi hc
    · split
      · exact rules_for_i_isSome hi hc
      · split
        · exact rules_for_h_isSome hi hc
        · split
          · exact rules_for_soft_isSome hc
          · split
            · exact rules_for_s_isSome hi hc
            · exfalso
              rename_i hn1 hn2 hn3 hn4 hn5 hn6
              obtain ⟨v, hv⟩ := Option.isSome_iff_exists.mp hc
              have hmem := chars_with_rules_vals hv
              have hall : ∀ p ∈ chars_with_rules_list,
                  p.1 ∈ (['Е', 'е'] : List Char) ∨ p.1 ∈ (['Ё', 'ё'] : List Char) ∨
                  p.1 ∈ (['И', 'и', 'Й', 'й'] : List Char) ∨ p.1 ∈ (['Х', 'х'] : List Char) ∨
                  p.1 ∈ (['Ь', 'ь'] : List Char) ∨ p.1 ∈ (['С', 'с'] : List Char) := by decide
              rcases hall _ hmem with h | h | h | h | h | h
              · exact hn1 h
              · exact hn2 h
              · exact hn3 h
              · exact hn4 h
              · exact hn5 h
              · exact hn6 h

/-! ### Driver totality and list-map lemmas -/

theorem resolve_char_isSome {w : List Char} {c : Char} {i : Nat} (hi : i < w.length) :
    (resolve_char w c i).isSome = true := by
  unfold resolve_char
  split
  · rfl
  · split
    · rename_i v hv
      exact check_char_rules_isSome hi (by rw [hv]; rfl)
    · rfl

theorem drop_cons_succ {w : List Char} {c : Char} {rest : List Char} {i : Nat}
    (h : w.drop i = c :: rest) : w.drop (i + 1) = rest ∧ i < w.length := by
  have hlen : i < w.length := by
    by_contra hcon
    rw [List.drop_eq_nil_of_le (by omega)] at h
    exact List.noConfusion h
  refine ⟨?_, hlen⟩
  have h1 : w.drop (i + 1) = List.drop 1 (w.drop i) := by
    rw [List.drop_drop]
  rw [h1, h]
  rfl

theorem convert_chars_isSome {w : List Char} :
    ∀ (sub : List Char) (i : Nat), w.drop i = sub → (convert_chars w i sub).isSome = true := by
  intro sub
  induction sub with
  | nil => intro i _; rfl
  | cons c rest ih =>
    intro i hdrop
    obtain ⟨hdrop2, hlen⟩ := drop_cons_succ hdrop
    unfold convert_chars
    obtain ⟨s, hs⟩ := Option.isSome_iff_exists.mp (resolve_char_isSome (c := c) hlen)
    rw [hs]
    obtain ⟨t, ht⟩ := Option.isSome_iff_exists.mp (ih (i + 1) hdrop2)
    rw [ht]
    rfl

theorem translit_word_isSome (w : List Char) : (translit_word w).isSome = true := by
  unfold translit_word
  exact convert_chars_isSome _ 0 (List.drop_zero _)

theorem opt_map_isSome {α β : Type} {f : α → Option β} :
    ∀ {l : List α}, (∀ x ∈ l, (f x).isSome = true) → (opt_map f l).isSome = true := by
  intro l
  induction l with
  | nil => intro _; rfl
  | cons x xs ih =>
    intro hall
    unfold opt_map
    obtain ⟨y, hy⟩ := Option.isSome_iff_exists.mp (hall x (List.mem_cons_self _ _))
    rw [hy]
    obtain ⟨ys, hys⟩ :=
      Option.isSome_iff_exists.mp (ih (fun z hz => hall z (List.mem_cons_of_mem _ hz)))
    rw [hys]
    rfl

theorem translit_sentence_isSome (s : List Char) : (translit_sentence s).isSome = true := by
  unfold translit_sentence
  obtain ⟨ws, hws⟩ := Option.isSome_iff_exists.mp
    (opt_map_isSome (fun w _ => translit_word_isSome w))
  rw [hws]
  rfl

theorem transliterate_isSome (ss : List (List Char)) : (transliterate ss).isSome = true := by
  unfold transliterate
  exact opt_map_isSome (fun s _ => translit_sentence_isSome s)

theorem opt_map_cons_some {α β : Type} {f : α → Option β} {x : α} {xs : List α} {out : List β}
    (h : opt_map f (x :: xs) = some out) :
    ∃ y ys, f x = some y ∧ opt_map f xs = some ys ∧ out = y :: ys := by
  unfold opt_map at h
  cases hfx : f x with
  | none => rw [hfx] at h; exact Option.noConfusion h
  | some y =>
    rw [hfx] at h
    dsimp only at h
    cases hys : opt_map f xs with
    | none => rw [hys] at h; exact Option.noConfusion h
    | some ys =>
      rw [hys] at h
      dsimp only at h
      exact ⟨y, ys, rfl, rfl, (Option.some.inj h).symm⟩

theorem opt_map_length {α β : Type} {f : α → Option β} :
    ∀ {l : List α} {out : List β}, opt_map f l = some out → out.length = l.length := by
  intro l
  induction l with
  | nil => intro out h; cases (Option.some.inj h); rfl
  | cons x xs ih =>
    intro out h
    obtain ⟨y, ys, _, hys, hout⟩ := opt_map_cons_some h
    subst hout
    simp only [List.length_cons, ih hys]

theorem opt_map_getD {α β : Type} {f : α → Option β} (d : α) (d2 : β) :
    ∀ {l : List α} {out : List β}, opt_map f l = some out →
      ∀ i, i < l.length → f (l.getD i d) = some (out.getD i d2) := by
  intro l
  induction l with
  | nil => intro out _ i hi; simp at hi
  | cons x xs ih =>
    intro out h i hi
    obtain ⟨y, ys, hy, hys, hout⟩ := opt_map_cons_some h
    subst hout
    cases i with
    | zero => simpa using hy
    | succ j =>
      simp only [List.getD_cons_succ]
      exact ih hys j (by simpa using hi)

theorem opt_map_mem {α β : Type} {f : α → Option β} :
    ∀ {l : List α} {out : List β}, opt_map f l = some out →
      ∀ y ∈ out, ∃ x ∈ l, f x = some y := by
  intro l
  induction l with
  | nil =>
    intro out h y hy
    cases (Option.some.inj h)
    simp at hy
  | cons x xs ih =>
    intro out h y hy
    obtain ⟨z, zs, hz, hzs, hout⟩ := opt_map_cons_some h
    subst hout
    rcases List.mem_cons.mp hy with h1 | h1
    · exact ⟨x, List.mem_cons_self _ _, by rw [hz, h1]⟩
    · obtain ⟨x2, hx2, hfx2⟩ := ih hzs y h1
      exact ⟨x2, List.mem_cons_of_mem _ hx2, hfx2⟩

theorem opt_map_congr_id {α : Type} {f : α → Option α} :
    ∀ {l : List α}, (∀ x ∈ l, f x = some x) → opt_map f l = some l := by
  intro l
  induction l with
  | nil => intro _; rfl
  | cons x xs ih =>
    intro hall
    unfold opt_map
    rw [hall x (List.mem_cons_self _ _), ih (fun z hz => hall z (List.mem_cons_of_mem _ hz))]

/-! ### Split and join lemmas -/

theorem pySplit_ne_nil (s : List Char) : pySplit s ≠ [] := by
  cases s with
  | nil => simp [pySplit]
  | cons c rest =>
    unfold pySplit
    split
    · simp
    · split <;> simp

theorem mem_pySplit_no_space : ∀ (s : List Char) (w : List Char), w ∈ pySplit s → ' ' ∉ w := by
  intro s
  induction s with
  | nil =>
    intro w hw
    unfold pySplit at hw
    rcases List.mem_singleton.mp hw with h
    subst h
    simp
  | cons c rest ih =>
    intro w hw
    unfold pySplit at hw
    cases hrec : pySplit rest with
    | nil => exact absurd hrec (pySplit_ne_nil rest)
    | cons w2 ws2 =>
      rw [hrec] at hw
      dsimp only at hw
      by_cases hc : c = ' '
      · rw [if_pos hc] at hw
        rcases List.mem_cons.mp hw with h1 | h1
        · subst h1; simp
        · exact ih w (by rw [hrec]; exact h1)
      · rw [if_neg hc] at hw
        rcases List.mem_cons.mp hw with h1 | h1
        · subst h1
          intro hmem
          rcases List.mem_cons.mp hmem with h2 | h2
          · exact hc h2.symm
          · exact ih w2 (by rw [hrec]; exact List.mem_cons_self _ _) h2
        · exact ih w (by rw [hrec]; exact List.mem_cons_of_mem _ h1)

theorem mem_of_mem_pySplit :
    ∀ (s : List Char) (w : List Char), w ∈ pySplit s → ∀ c ∈ w, c ∈ s := by
  intro s
  induction s with
  | nil =>
    intro w hw c hc
    unfold pySplit at hw
    rcases List.mem_singleton.mp hw with h
    subst h
    simp at hc
  | cons a rest ih =>
    intro w hw c hc
    unfold pySplit at hw
    cases hrec : pySplit rest with
    | nil => exact absurd hrec (pySplit_ne_nil rest)
    | cons w2 ws2 =>
      rw [hrec] at hw
      dsimp only at hw
      by_cases ha : a = ' '
      · rw [if_pos ha] at hw
        rcases List.mem_cons.mp hw with h1 | h1
        · subst h1; simp at hc
        · exact List.mem_cons_of_mem _ (ih w (by rw [hrec]; exact h1) c hc)
      · rw [if_neg ha] at hw
        rcases List.mem_cons.mp hw with h1 | h1
        · subst h1
          rcases List.mem_cons.mp hc with h2 | h2
          · subst h2; exact List.mem_cons_self _ _
          · exact List.mem_cons_of_mem _
              (ih w2 (by rw [hrec]; exact List.mem_cons_self _ _) c h2)
        · exact List.mem_cons_of_mem _ (ih w (by rw [hrec]; exact List.mem_cons_of_mem _ h1) c hc)

theorem pyJoin_pySplit : ∀ (s : List Char), pyJoin (pySplit s) = s := by
  intro s
  induction s with
  | nil => rfl
  | cons c rest ih =>
    unfold pySplit
    cases hrec : pySplit rest with
    | nil => exact absurd hrec (pySplit_ne_nil rest)
    | cons w2 ws2 =>
      dsimp only
      by_cases hc : c = ' '
      · rw [if_pos hc]
        subst hc
        show ' ' :: pyJoin (w2 :: ws2) = ' ' :: rest
        rw [← hrec, ih]
      · rw [if_neg hc]
        cases ws2 with
        | nil =>
          show c :: w2 = c :: rest
          have : pyJoin [w2] = w2 := rfl
          rw [← this, ← hrec, ih]
        | cons w3 ws3 =>
          show (c :: w2) ++ ' ' :: pyJoin (w3 :: ws3) = c :: rest
          have : pyJoin ((c :: w2) :: w3 :: ws3) = (c :: w2) ++ ' ' :: pyJoin (w3 :: ws3) := rfl
          rw [← this]
          show c :: (w2 ++ ' ' :: pyJoin (w3 :: ws3)) = c :: rest
          have h2 : pyJoin (w2 :: w3 :: ws3) = w2 ++ ' ' :: pyJoin (w3 :: ws3) := rfl
          rw [← h2, ← hrec, ih]

theorem pySplit_no_space {w : List Char} (hw : ' ' ∉ w) : pySplit w = [w] := by
  induction w with
  | nil => rfl
  | cons c rest ih =>
    have hc : c ≠ ' ' := fun h => hw (by rw [h]; exact List.mem_cons_self _ _)
    have hrest : ' ' ∉ rest := fun h => hw (List.mem_cons_of_mem _ h)
    unfold pySplit
    rw [ih hrest]
    dsimp only
    rw [if_neg hc]

theorem pySplit_append_space {w t : List Char} (hw : ' ' ∉ w) :
    pySplit (w ++ ' ' :: t) = w :: pySplit t := by
  induction w with
  | nil =>
    show pySplit (' ' :: t) = [] :: pySplit t
    cases hrec : pySplit t with
    | nil => exact absurd hrec (pySplit_ne_nil t)
    | cons w2 ws2 =>
      unfold pySplit
      rw [hrec]
      dsimp only
      rw [if_pos rfl]
  | cons c rest ih =>
    have hc : c ≠ ' ' := fun h => hw (by rw [h]; exact List.mem_cons_self _ _)
    have hrest : ' ' ∉ rest := fun h => hw (List.mem_cons_of_mem _ h)
    show pySplit (c :: (rest ++ ' ' :: t)) = (c :: rest) :: pySplit t
    cases hrec : pySplit t with
    | nil => exact absurd hrec (pySplit_ne_nil t)
    | cons w2 ws2 =>
      unfold pySplit
      rw [ih hrest, hrec]
      dsimp only
      rw [if_neg hc]

theorem pySplit_pyJoin : ∀ (ws : List (List Char)), (∀ w ∈ ws, ' ' ∉ w) → ws ≠ [] →
    pySplit (pyJoin ws) = ws := by
  intro ws
  induction ws with
  | nil => intro _ hne; exact absurd rfl hne
  | cons w rest ih =>
    intro hall _
    cases rest with
    | nil =>
      show pySplit (pyJoin [w]) = [w]
      have : pyJoin [w] = w := rfl
      rw [this]
      exact pySplit_no_space (hall w (List.mem_cons_self _ _))
    | cons w2 ws2 =>
      show pySplit (w ++ ' ' :: pyJoin (w2 :: ws2)) = w :: w2 :: ws2
      rw [pySplit_append_space (hall w (List.mem_cons_self _ _))]
      rw [ih (fun z hz => hall z (List.mem_cons_of_mem _ hz)) (by simp)]

/-! ### Output shape lemmas -/

theorem pyLower_eq_space {c : Char} (h : pyLower c = ' ') : c = ' ' := by
  by_cases hr : (('A' ≤ c && c ≤ 'Z') || ('А' ≤ c && c ≤ 'Я')) = true
  · exfalso
    have h1 := (pyLower_in_range hr).1
    rw [h] at h1
    have h2 : (' ' : Char).toNat = 32 := by decide
    have h3 : c.toNat ≥ 65 := by
      rcases Bool.or_eq_true_iff.mp hr with h4 | h4
      · have h5 := char_le_toNat (of_decide_eq_true (Bool.and_eq_true_iff.mp h4).1)
        have h6 : ('A' : Char).toNat = 65 := by decide
        omega
      · have h5 := char_le_toNat (of_decide_eq_true (Bool.and_eq_true_iff.mp h4).1)
        have h6 : ('А' : Char).toNat = 1040 := by decide
        omega
    omega
  · unfold pyLower at h
    rw [if_neg hr] at h
    by_cases h2 : c = 'Ё'
    · rw [if_pos h2] at h
      exact absurd h (by decide)
    · rwa [if_neg h2] at h

theorem ciur_no_space {c : Char} {l : List Char} (h : ' ' ∉ l) :
    ' ' ∉ check_if_upper_and_return c l := by
  unfold check_if_upper_and_return
  split
  · exact h
  · intro hmem
    obtain ⟨y, hy, hly⟩ := List.mem_map.mp hmem
    exact h (by rw [← pyLower_eq_space hly]; exact hy)

theorem check_char_rules_no_space {w : List Char} {c : Char} {i : Nat} {s : List Char}
    (h : check_char_rules w c i = some s) : ' ' ∉ s := by
  rcases check_char_rules_cases h with h1 | h1 | h1 | h1 | h1 | h1
  · rw [h1]; exact ciur_no_space (by decide)
  · rw [h1]; exact ciur_no_space (by decide)
  · rw [h1]; exact ciur_no_space (by decide)
  · rw [h1]; exact ciur_no_space (by decide)
  · rw [h1]; exact ciur_no_space (by decide)
  · exact chars_with_rules_no_space h1

theorem resolve_char_no_space {w : List Char} {c : Char} {i : Nat} {s : List Char}
    (h : resolve_char w c i = some s) (hc : c ≠ ' ') : ' ' ∉ s := by
  unfold resolve_char at h
  split at h
  · rename_i v hv
    cases (Option.some.inj h)
    exact translit_table_no_space hv
  · split at h
    · exact check_char_rules_no_space h
    · cases (Option.some.inj h).symm
      intro hmem
      rcases List.mem_singleton.mp hmem with h2
      exact hc h2.symm

theorem convert_chars_no_space {w : List Char} :
    ∀ (sub : List Char) (i : Nat) (out : List Char), (∀ c ∈ sub, c ≠ ' ') →
      convert_chars w i sub = some out → ' ' ∉ out := by
  intro sub
  induction sub with
  | nil =>
    intro i out _ h
    cases (Option.some.inj h)
    simp
  | cons c rest ih =>
    intro i out hall h
    unfold convert_chars at h
    cases hres : resolve_char w c i with
    | none => rw [hres] at h; exact Option.noConfusion h
    | some s =>
      rw [hres] at h
      dsimp only at h
      cases hrec : convert_chars w (i + 1) rest with
      | none => rw [hrec] at h; exact Option.noConfusion h
      | some t =>
        rw [hrec] at h
        dsimp only at h
        cases (Option.some.inj h)
        intro hmem
        rcases List.mem_append.mp hmem with h1 | h1
        · exact resolve_char_no_space hres (hall c (List.mem_cons_self _ _)) h1
        · exact ih (i + 1) t (fun z hz => hall z (List.mem_cons_of_mem _ hz)) hrec h1

theorem check_doublechar_chars {w : List Char} {c : Char}
    (h : c ∈ check_doublechar_rules w) : c ∈ w ∨ c = 'I' ∨ c = 'i' := by
  rw [check_doublechar_eq] at h
  split at h
  · rcases List.mem_append.mp h with h1 | h1
    · exact Or.inl (List.mem_of_mem_take h1)
    · rcases ciur_singleton (w.getD (w.length - 2) ' ') with h2 | h2 <;> rw [h2] at h1
      · exact Or.inr (Or.inl (List.mem_singleton.mp h1))
      · exact Or.inr (Or.inr (List.mem_singleton.mp h1))
  · exact Or.inl h

theorem translit_word_no_space {w v : List Char} (hw : ' ' ∉ w)
    (h : translit_word w = some v) : ' ' ∉ v := by
  unfold translit_word at h
  refine convert_chars_no_space _ 0 v ?_ h
  intro c hc hcsp
  subst hcsp
  rcases check_doublechar_chars hc with h1 | h1 | h1
  · exact hw h1
  · exact absurd h1 (by decide)
  · exact absurd h1 (by decide)

theorem translit_sentence_split {s o : List Char} (h : translit_sentence s = some o) :
    ∃ ws, opt_map translit_word (pySplit s) = some ws ∧ o = pyJoin ws ∧ pySplit o = ws := by
  unfold translit_sentence at h
  cases hws : opt_map translit_word (pySplit s) with
  | none => rw [hws] at h; exact Option.noConfusion h
  | some ws =>
    rw [hws] at h
    dsimp only at h
    cases (Option.some.inj h)
    refine ⟨ws, rfl, rfl, ?_⟩
    have hnosp : ∀ v ∈ ws, ' ' ∉ v := by
      intro v hv
      obtain ⟨x, hx, hfx⟩ := opt_map_mem hws v hv
      exact translit_word_no_space (mem_pySplit_no_space s x hx) hfx
    have hne : ws ≠ [] := by
      intro hcon
      have h1 := opt_map_length hws
      rw [hcon] at h1
      exact pySplit_ne_nil s (List.length_eq_zero.mp h1.symm)
    exact pySplit_pyJoin ws hnosp hne

/-! ### Pass-through lemmas -/

theorem resolve_char_passthrough {w : List Char} {c : Char} {i : Nat}
    (h1 : translit_table c = none) (h2 : chars_with_rules c = none) :
    resolve_char w c i = some [c] := by
  unfold resolve_char
  rw [h1, h2]

theorem convert_chars_id {w : List Char} :
    ∀ (sub : List Char) (i : Nat),
      (∀ c ∈ sub, translit_table c = none ∧ chars_with_rules c = none) →
      convert_chars w i sub = some sub := by
  intro sub
  induction sub with
  | nil => intro i _; rfl
  | cons c rest ih =>
    intro i hall
    unfold convert_chars
    rw [resolve_char_passthrough (hall c (List.mem_cons_self _ _)).1
      (hall c (List.mem_cons_self _ _)).2]
    dsimp only
    rw [ih (i + 1) (fun z hz => hall z (List.mem_cons_of_mem _ hz))]
    rfl

theorem getD_mem_of_lt {w : List Char} {k : Nat} (h : k < w.length) : w.getD k ' ' ∈ w := by
  rw [List.getD_eq_getElem _ _ h]
  exact List.getElem_mem h

theorem check_doublechar_id {w : List Char}
    (hall : ∀ c ∈ w, chars_with_rules c = none) : check_doublechar_rules w = w := by
  rw [check_doublechar_eq]
  by_cases hn : 3 < w.length
  · rw [if_neg ?hcond]
    case hcond =>
      intro hcontra
      have hm : w.getD (w.length - 2) ' ' ∈ w := getD_mem_of_lt (by omega)
      rcases pyLower_eq_i hcontra.2.1 with h1 | h1 <;>
        · have := hall _ hm
          rw [h1] at this
          exact Option.noConfusion this
  · rw [if_neg (fun hcontra => hn hcontra.1)]

theorem translit_word_id {w : List Char}
    (hall : ∀ c ∈ w, translit_table c = none ∧ chars_with_rules c = none) :
    translit_word w = some w := by
  unfold translit_word
  rw [check_doublechar_id (fun c hc => (hall c hc).2)]
  exact convert_chars_id w 0 hall

theorem translit_sentence_id {s : List Char}
    (hall : ∀ c ∈ s, translit_table c = none ∧ chars_with_rules c = none) :
    translit_sentence s = some s := by
  unfold translit_sentence
  have hws : opt_map translit_word (pySplit s) = some (pySplit s) := by
    refine opt_map_congr_id ?_
    intro w hw
    exact translit_word_id (fun c hc => hall c (mem_of_mem_pySplit s w hw c hc))
  rw [hws]
  dsimp only
  rw [pyJoin_pySplit]

theorem ciur_length (c : Char) (l : List Char) :
    (check_if_upper_and_return c l).length = l.length := by
  unfold check_if_upper_and_return
  split
  · rfl
  · exact List.length_map _ _

/-! ### Claim theorems -/

/-- C3: for every word longer than 3 characters whose last two characters are
(case-insensitively) the sequence "ий", `_check_doublechar_rules` returns the
word with the "и" replaced by "I"/"i" (cased to match the original "и" via the
case helper) and the trailing "й" dropped, so the result is exactly one
character shorter; for every word of length at most 3, or whose lowered form
does not end in "ий", the word is returned unmodified. -/
theorem C3_doublechar_collapse (w : List Char) :
    (check_doublechar_rules w =
      if 3 < w.length ∧ pyLower (w.getD (w.length - 2) ' ') = 'и' ∧
          pyLower (w.getD (w.length - 1) ' ') = 'й' then
        w.take (w.length - 2) ++ check_if_upper_and_return (w.getD (w.length - 2) ' ') ['I']
      else w) ∧
    (check_doublechar_rules w).length =
      (if 3 < w.length ∧ pyLower (w.getD (w.length - 2) ' ') = 'и' ∧
          pyLower (w.getD (w.length - 1) ' ') = 'й' then w.length - 1 else w.length) := by
  refine ⟨check_doublechar_eq w, ?_⟩
  rw [check_doublechar_eq w]
  split
  · rename_i hcond
    rw [List.length_append, List.length_take, ciur_length]
    simp only [List.length_singleton]
    omega
  · rfl

/-- C4: the end-to-end transliteration maps the spec's literal scenario words
"Горький", "Денис" and "Подъездов" to exactly "Gorki", "Deniss" and
"Podjezdov". -/
theorem C4_concrete_scenarios :
    transliterate
        [['Г', 'о', 'р', 'ь', 'к', 'и', 'й'],
         ['Д', 'е', 'н', 'и', 'с'],
         ['П', 'о', 'д', 'ъ', 'е', 'з', 'д', 'о', 'в']] =
      some
        [['G', 'o', 'r', 'k', 'i'],
         ['D', 'e', 'n', 'i', 's', 's'],
         ['P', 'o', 'd', 'j', 'e', 'z', 'd', 'o', 'v']] := by
  decide

/-- C7: transliteration never hits an exception: the full pipeline returns a
value for every input list of sentences, the dispatcher returns a string for
every character of the ambiguous table at a valid index, and a character in
neither table is emitted verbatim. -/
theorem C7_no_exceptions :
    (∀ ss : List (List Char), (transliterate ss).isSome = true) ∧
    (∀ (w : List Char) (c : Char) (i : Nat), i < w.length →
      (chars_with_rules c).isSome = true → (check_char_rules w c i).isSome = true) ∧
    (∀ (w : List Char) (c : Char) (i : Nat), translit_table c = none →
      chars_with_rules c = none → resolve_char w c i = some [c]) :=
  ⟨transliterate_isSome, fun _ _ _ hi hc => check_char_rules_isSome hi hc,
   fun _ _ _ h1 h2 => resolve_char_passthrough h1 h2⟩

/-- Witness for C7 at concrete inputs. -/
theorem C7_witness :
    (transliterate [['х']]).isSome = true ∧
    (check_char_rules ['а', 'х'] 'х' 1).isSome = true ∧
    resolve_char ['Q'] 'Q' 0 = some ['Q'] :=
  ⟨C7_no_exceptions.1 [['х']],
   C7_no_exceptions.2.1 ['а', 'х'] 'х' 1 (by decide) (by decide),
   C7_no_exceptions.2.2 ['Q'] 'Q' 0 (by decide) (by decide)⟩

/-- C8: a sentence containing only characters outside both static tables is
returned exactly as it is, and re-running transliteration on that output is a
no-op. -/
theorem C8_passthrough (s : List Char)
    (hall : ∀ c ∈ s, translit_table c = none ∧ chars_with_rules c = none) :
    translit_sentence s = some s ∧
      ∀ o, translit_sentence s = some o → translit_sentence o = some o := by
  have h1 := translit_sentence_id hall
  refine ⟨h1, ?_⟩
  intro o ho
  rw [h1] at ho
  cases (Option.some.inj ho)
  exact h1

/-- Witness for C8 on the non-Cyrillic sentence "iP 2!". -/
theorem C8_witness :
    translit_sentence ['i', 'P', ' ', '2', '!'] = some ['i', 'P', ' ', '2', '!'] :=
  (C8_passthrough ['i', 'P', ' ', '2', '!'] (by decide)).1

/-- C1 counterexample: in the word "ахбх" the х at index 1 follows the vowel а,
is not the last character, has no following vowel, and the word length is not
2, so the claim's condition is false and it predicts "h"; the code nonetheless
returns "hh" because the word's last character equals х by value. -/
theorem C1_counterexample :
    rules_for_h ['а', 'х', 'б', 'х'] 'х' 1 = some ['h', 'h'] ∧
    spec_double_cond ['а', 'х', 'б', 'х'] 1 = false ∧
    chars_with_rules 'х' = some ['h'] ∧
    (['h', 'h'] : List Char) ≠ ['h'] := by decide

/-- C1 (amended): for every word, ambiguous character х/Х (resp. с/С) at a
valid index, the rule returns the case-adjusted "Hh" (resp. "Ss") exactly when
the index is positive, the preceding character is in the vowel list, and the
word length is 2, or a following vowel exists, or the word's LAST CHARACTER
EQUALS this character by value (which in particular holds when this occurrence
is the last character); otherwise it returns the case-adjusted "H" (resp.
"S"). -/
theorem C1_amended_h_s_rules (w : List Char) (c : Char) (i : Nat) (hi : i < w.length) :
    ((c = 'Х' ∨ c = 'х') →
      rules_for_h w c i =
        some (check_if_upper_and_return c
          (if hs_double_cond w c i then ['H', 'h'] else ['H']))) ∧
    ((c = 'С' ∨ c = 'с') →
      rules_for_s w c i =
        some (check_if_upper_and_return c
          (if hs_double_cond w c i then ['S', 's'] else ['S']))) := by
  constructor
  · intro hc
    rw [rules_for_h_eq hi]
    by_cases hcond : hs_double_cond w c i = true
    · rw [if_pos hcond, if_pos hcond]
    · rw [if_neg hcond, if_neg hcond]
      rcases hc with h | h <;> subst h <;> decide
  · intro hc
    rw [rules_for_s_eq hi]
    by_cases hcond : hs_double_cond w c i = true
    · rw [if_pos hcond, if_pos hcond]
    · rw [if_neg hcond, if_neg hcond]
      rcases hc with h | h <;> subst h <;> decide

/-- Witness for C1 at the words "аха" and "ас". -/
theorem C1_witness :
    rules_for_h ['а', 'х', 'а'] 'х' 1 =
      some (check_if_upper_and_return 'х'
        (if hs_double_cond ['а', 'х', 'а'] 'х' 1 then ['H', 'h'] else ['H'])) ∧
    rules_for_s ['а', 'с'] 'с' 1 =
      some (check_if_upper_and_return 'с'
        (if hs_double_cond ['а', 'с'] 'с' 1 then ['S', 's'] else ['S'])) :=
  ⟨(C1_amended_h_s_rules ['а', 'х', 'а'] 'х' 1 (by decide)).1 (Or.inr rfl),
   (C1_amended_h_s_rules ['а', 'с'] 'с' 1 (by decide)).2 (Or.inr rfl)⟩

/-- C2 counterexample: е at index 1 preceded by the uppercase vowel А resolves
to "e", while е preceded by the lowercase а resolves to "je" — the vowel test
is not case-insensitive. -/
theorem C2_counterexample :
    rules_for_e ['А', 'е'] 'е' 1 = some ['e'] ∧
    rules_for_e ['а', 'е'] 'е' 1 = some ['j', 'e'] ∧
    (['e'] : List Char) ≠ ['j', 'e'] := by decide

/-- C2 (amended): the vowel-membership test used by the contextual rules is
case-sensitive: none of the ten uppercase Cyrillic vowels is in the vowel list
`_vocals_rus`, and the rule for е yields the case-adjusted "Je" after a valid
positive index exactly when the preceding character is in that lowercase-only
vowel list or is one of Ь/ь/Ъ/ъ. -/
theorem C2_amended_case_sensitive_vowels :
    (∀ c ∈ (['А', 'Э', 'Ы', 'У', 'О', 'Я', 'Е', 'Ё', 'Ю', 'И'] : List Char),
      c ∉ vocals_rus) ∧
    (∀ (w : List Char) (c : Char) (i : Nat), (c = 'Е' ∨ c = 'е') → 0 < i → i < w.length →
      (rules_for_e w c i = some (check_if_upper_and_return c ['J', 'e']) ↔
        (w.getD (i - 1) ' ' ∈ vocals_rus ∨
          w.getD (i - 1) ' ' ∈ (['Ь', 'ь', 'Ъ', 'ъ'] : List Char)))) := by
  constructor
  · decide
  · intro w c i hc h0 hi
    unfold rules_for_e
    rw [if_neg (by omega), pyGet_sub_one h0 hi]
    dsimp only
    by_cases hcond : (w.getD (i - 1) ' ' ∈ vocals_rus ∨
        w.getD (i - 1) ' ' ∈ (['Ь', 'ь', 'Ъ', 'ъ'] : List Char))
    · rw [if_pos hcond]
      exact iff_of_true rfl hcond
    · rw [if_neg hcond]
      refine iff_of_false ?_ hcond
      rcases hc with h | h <;> subst h <;> decide

/-- Witness for C2: А is not in the vowel list, and е after lowercase а
resolves to "je". -/
theorem C2_witness :
    ('А' ∉ vocals_rus) ∧
    rules_for_e ['а', 'е'] 'е' 1 = some (check_if_upper_and_return 'е' ['J', 'e']) :=
  ⟨C2_amended_case_sensitive_vowels.1 'А' (by decide),
   (C2_amended_case_sensitive_vowels.2 ['а', 'е'] 'е' 1 (Or.inr rfl) (by decide)
     (by decide)).mpr (by decide)⟩

/-- C5 counterexample: the uppercase soft sign Ь resolves to the empty string
(here in the word "Ьт"), so its resolved string has no first letter while the
source character is uppercase — the claimed first-letter case equality cannot
hold for it. -/
theorem C5_counterexample :
    check_char_rules ['Ь', 'т'] 'Ь' 0 = some [] ∧ pyIsUpper 'Ь' = true ∧
      firstIsUpper [] = false := by decide

/-- C5 (amended): for every ambiguous character c and the string s the
dispatcher resolves it to, if s is nonempty then its first letter is uppercase
exactly when c is, and every letter after the first is lowercase; s can be
empty only for the soft sign Ь/ь. -/
theorem C5_amended_case_invariant (w : List Char) (c : Char) (i : Nat) (s : List Char)
    (h : check_char_rules w c i = some s) :
    (s ≠ [] → (firstIsUpper s = true ↔ pyIsUpper c = true)) ∧
    (∀ d ∈ s.drop 1, pyIsLower d = true) ∧
    (s = [] → c = 'Ь' ∨ c = 'ь') := by
  rcases check_char_rules_cases h with h1 | h1 | h1 | h1 | h1 | h1
  all_goals try
    (subst h1
     by_cases hu : pyIsUpper c = true
     · unfold check_if_upper_and_return
       rw [if_pos hu]
       exact ⟨fun _ => iff_of_true (by decide) hu, by decide, fun hnil => absurd hnil (by decide)⟩
     · unfold check_if_upper_and_return
       rw [if_neg hu]
       exact ⟨fun _ => iff_of_false (by decide) hu, by decide, fun hnil => absurd hnil (by decide)⟩)
  have hm := chars_with_rules_vals h1
  have hall : ∀ p ∈ chars_with_rules_list,
      (p.2 ≠ [] → (firstIsUpper p.2 = true ↔ pyIsUpper p.1 = true)) ∧
      (∀ d ∈ p.2.drop 1, pyIsLower d = true) ∧
      (p.2 = [] → p.1 = 'Ь' ∨ p.1 = 'ь') := by decide
  exact hall _ hm

/-- Witness for C5 at х in "аха": the resolved "hh" is lowercase like its
source. -/
theorem C5_witness :
    (firstIsUpper ['h', 'h'] = true ↔ pyIsUpper 'х' = true) ∧
    (∀ d ∈ (['h', 'h'] : List Char).drop 1, pyIsLower d = true) := by
  have h := C5_amended_case_invariant ['а', 'х', 'а'] 'х' 1 ['h', 'h'] (by decide)
  exact ⟨h.1 (by decide), h.2.1⟩

/-- C9 counterexample: a null sequence fails with a TypeError raised by the
iteration in `_transliterate`, while a non-string entry fails with an
AttributeError raised by the `.split` call inside the loop — two different
generic runtime exceptions from inside the processing code, not one
distinguished invalid-argument signal at the API boundary. -/
theorem C9_counterexample :
    py_call none = Except.error PyExc.typeError ∧
    py_call (some [PyVal.nonstr]) = Except.error PyExc.attributeError ∧
    PyExc.typeError ≠ PyExc.attributeError :=
  ⟨rfl, rfl, by decide⟩

/-- C9 (amended): `__call__` adds no validation of its own (it is exactly
`_transliterate`); a null sequence raises TypeError from the iteration, a
non-string entry raises AttributeError from `.split` inside the loop, and a
list of strings never fails. -/
theorem C9_amended_no_validation :
    py_call = py_transliterate ∧
    py_call none = Except.error PyExc.typeError ∧
    py_call (some [PyVal.nonstr]) = Except.error PyExc.attributeError ∧
    ∀ ss : List (List Char), ∃ out, py_call (some (ss.map PyVal.str)) = Except.ok out := by
  refine ⟨rfl, rfl, rfl, ?_⟩
  intro ss
  induction ss with
  | nil => exact ⟨[], rfl⟩
  | cons s rest ih =>
    obtain ⟨out, hout⟩ := ih
    obtain ⟨o, ho⟩ := Option.isSome_iff_exists.mp (translit_sentence_isSome s)
    refine ⟨o :: out, ?_⟩
    show py_process (PyVal.str s :: rest.map PyVal.str) = Except.ok (o :: out)
    have hout2 : py_process (rest.map PyVal.str) = Except.ok out := hout
    unfold py_process
    rw [ho, hout2]

/-- C10: under the word-final collapse conditions, the substituted character
is the Latin letter "I"/"i" — outside both static tables — so the per-character
loop emits it verbatim, and a soft sign ь directly before the collapsed
position resolves to the empty string (the following Latin i is not a Cyrillic
vowel), not to "j". -/
theorem C10_collapsed_latin_i (w : List Char) (h3 : 3 < w.length)
    (hci : pyLower (w.getD (w.length - 2) ' ') = 'и')
    (hcj : pyLower (w.getD (w.length - 1) ' ') = 'й') :
    ((check_doublechar_rules w).getD ((check_doublechar_rules w).length - 1) ' ' = 'I' ∨
      (check_doublechar_rules w).getD ((check_doublechar_rules w).length - 1) ' ' = 'i') ∧
    translit_table ((check_doublechar_rules w).getD ((check_doublechar_rules w).length - 1) ' ')
      = none ∧
    chars_with_rules ((check_doublechar_rules w).getD ((check_doublechar_rules w).length - 1) ' ')
      = none ∧
    resolve_char (check_doublechar_rules w)
        ((check_doublechar_rules w).getD ((check_doublechar_rules w).length - 1) ' ')
        ((check_doublechar_rules w).length - 1)
      = some [(check_doublechar_rules w).getD ((check_doublechar_rules w).length - 1) ' '] ∧
    (∀ c, (c = 'Ь' ∨ c = 'ь') →
      (check_doublechar_rules w).getD ((check_doublechar_rules w).length - 2) ' ' = c →
      check_char_rules (check_doublechar_rules w) c ((check_doublechar_rules w).length - 2)
        = some []) := by
  have heq : check_doublechar_rules w =
      w.take (w.length - 2) ++ check_if_upper_and_return (w.getD (w.length - 2) ' ') ['I'] := by
    rw [check_doublechar_eq, if_pos ⟨h3, hci, hcj⟩]
  have hXcases := ciur_singleton (w.getD (w.length - 2) ' ')
  have hlen : (check_doublechar_rules w).length = w.length - 1 := by
    rw [heq, List.length_append, List.length_take, ciur_length]
    simp only [List.length_singleton]
    omega
  have hlast : (check_doublechar_rules w).getD ((check_doublechar_rules w).length - 1) ' ' = 'I' ∨
      (check_doublechar_rules w).getD ((check_doublechar_rules w).length - 1) ' ' = 'i' := by
    have step : (check_doublechar_rules w).getD ((check_doublechar_rules w).length - 1) ' ' =
        (check_if_upper_and_return (w.getD (w.length - 2) ' ') ['I']).getD 0 ' ' := by
      rw [hlen, heq, List.getD_append_right _ _ _ _ (by rw [List.length_take]; omega)]
      congr 1
      rw [List.length_take]
      omega
    rcases hXcases with h | h <;> rw [step, h]
    · left; rfl
    · right; rfl
  have hnext : ((check_doublechar_rules w).getD ((check_doublechar_rules w).length - 2 + 1) ' ')
      = (check_doublechar_rules w).getD ((check_doublechar_rules w).length - 1) ' ' := by
    rw [hlen]
    congr 1
    omega
  refine ⟨hlast, ?_, ?_, ?_, ?_⟩
  · rcases hlast with h | h <;> rw [h] <;> decide
  · rcases hlast with h | h <;> rw [h] <;> decide
  · refine resolve_char_passthrough ?_ ?_ <;> rcases hlast with h | h <;> rw [h] <;> decide
  · intro c hcsoft hcpos
    have hsoft : rules_for_soft (check_doublechar_rules w) c
        ((check_doublechar_rules w).length - 2) = some [] := by
      unfold rules_for_soft
      rw [if_pos (drop_length_pos_iff.mpr (by omega))]
      rw [pyGet_add_one (by omega)]
      dsimp only
      rw [if_neg ?hcond]
      case hcond =>
        intro hcontra
        have h2 := hcontra.2
        rw [hnext] at h2
        rcases hlast with h | h <;> rw [h] at h2 <;> exact absurd h2 (by decide)
      rcases hcsoft with h | h <;> subst h <;> decide
    rcases hcsoft with h | h <;> subst h <;>
      · unfold check_char_rules
        rw [if_neg (by decide), if_neg (by decide), if_neg (by decide), if_neg (by decide),
          if_pos (by decide)]
        exact hsoft

/-- Witness for C10 at the word "тьий", which collapses to "тьi". -/
theorem C10_witness :
    check_char_rules (check_doublechar_rules ['т', 'ь', 'и', 'й']) 'ь'
        ((check_doublechar_rules ['т', 'ь', 'и', 'й']).length - 2) = some [] := by
  have h := C10_collapsed_latin_i ['т', 'ь', 'и', 'й'] (by decide) (by decide) (by decide)
  exact h.2.2.2.2 'ь' (Or.inr rfl) (by decide)

/-- C6: the output list has the same length as the input list; each output
sentence splits on the single space character into exactly as many words as
the corresponding input sentence (splitting is on the literal space with no
trimming or collapsing), and empty input words are reproduced as empty output
words. -/
theorem C6_length_invariants (ss out : List (List Char)) (h : transliterate ss = some out) :
    out.length = ss.length ∧
    (∀ i, i < ss.length →
      (pySplit (out.getD i [])).length = (pySplit (ss.getD i [])).length) ∧
    (∀ i j, i < ss.length → (pySplit (ss.getD i [])).getD j [] = [] →
      (pySplit (out.getD i [])).getD j [] = []) := by
  unfold transliterate at h
  have hsen : ∀ i, i < ss.length →
      translit_sentence (ss.getD i []) = some (out.getD i []) := fun i hi =>
    opt_map_getD [] [] h i hi
  refine ⟨opt_map_length h, ?_, ?_⟩
  · intro i hi
    obtain ⟨ws, hws, _, hsplit⟩ := translit_sentence_split (hsen i hi)
    rw [hsplit]
    exact opt_map_length hws
  · intro i j hi hempty
    obtain ⟨ws, hws, _, hsplit⟩ := translit_sentence_split (hsen i hi)
    rw [hsplit]
    by_cases hj : j < (pySplit (ss.getD i [])).length
    · have hword := opt_map_getD [] [] hws j hj
      rw [hempty] at hword
      have hnil : translit_word [] = some [] := rfl
      rw [hnil] at hword
      exact (Option.some.inj hword).symm
    · refine List.getD_eq_default _ _ ?_
      rw [opt_map_length hws]
      omega

/-- Witness for C6 on the sentence "а б". -/
theorem C6_witness :
    ([['a', ' ', 'b']] : List (List Char)).length = ([['а', ' ', 'б']] : List (List Char)).length ∧
    (pySplit (([['a', ' ', 'b']] : List (List Char)).getD 0 [])).length =
      (pySplit (([['а', ' ', 'б']] : List (List Char)).getD 0 [])).length := by
  have h := C6_length_invariants [['а', ' ', 'б']] [['a', ' ', 'b']] (by decide)
  exact ⟨h.1, h.2.1 0 (by decide)⟩

end Translit
